import Mathlib

/-!
Verification of the indentation-detection core of `serde-yaml-neo`
(`src/indent.rs`), via a shallow embedding in Lean 4.

A Rust string slice is modelled as `List Char` (Lean `Char` and Rust `char`
are both Unicode scalar values); a byte slice is modelled as `List Nat`
with each element below 256.  The YAML event-stream parser used by
`validate_yaml` lives outside the analyzed source tree; following the
design document it is treated as an external collaborator and modelled as
an abstract function from the input bytes to a drain outcome
(`Except String Unit`), passed as a parameter to the entry points.
-/

namespace Yaml

set_option maxRecDepth 4000

/-- Error type for detection.  The source wraps parser failures with
`error::Error::from` and builds its own failures with
`ErrorImpl::Message(msg, None)`; we keep the two shapes apart. -/
inductive DetectError where
  | parse (msg : String)
  | message (msg : String)
deriving DecidableEq

/-- Decidable equality for `Except`, so that results of the detection
functions can be compared computationally. -/
instance {ε α : Type} [DecidableEq ε] [DecidableEq α] : DecidableEq (Except ε α)
  | .error a, .error b =>
    if h : a = b then .isTrue (by rw [h]) else .isFalse (by simp [h])
  | .error _, .ok _ => .isFalse (by simp)
  | .ok _, .error _ => .isFalse (by simp)
  | .ok a, .ok b =>
    if h : a = b then .isTrue (by rw [h]) else .isFalse (by simp [h])

/-- The fixed message of the tab-indentation error
(src/indent.rs line 115). -/
def tabMsg : String := "tab characters are not allowed for indentation in YAML"

/-- The message of the UTF-8 decoding error.  The source formats the
decoder's position into the message (line 91); the position does not
influence control flow, so the model uses the fixed prefix. -/
def utf8Msg : String := "invalid UTF-8"

/-- Detected indentation information (src/indent.rs lines 8-12). -/
structure Indentation where
  indent : Nat
deriving DecidableEq

/-- `Indentation::spaces` accessor (src/indent.rs lines 16-18). -/
def Indentation.spaces (i : Indentation) : Nat := i.indent

/-- Rust `char::is_whitespace`: the Unicode `White_Space` property. -/
def rustIsWhitespace (c : Char) : Bool :=
  let n := c.toNat
  n == 0x9 || n == 0xA || n == 0xB || n == 0xC || n == 0xD || n == 0x20 ||
  n == 0x85 || n == 0xA0 || n == 0x1680 ||
  (0x2000 ≤ n && n ≤ 0x200A) ||
  n == 0x2028 || n == 0x2029 || n == 0x202F || n == 0x205F || n == 0x3000

/-- Close an accumulated line (held in reverse) at a `'\n'` terminator:
Rust's `str::lines` strips one trailing `'\r'` from a `'\n'`-terminated
line, i.e. the head of the reversed accumulator. -/
def finishLine (cur : List Char) : List Char :=
  match cur with
  | '\r' :: rest => rest.reverse
  | _ => cur.reverse

/-- Worker for `rustLines`; `cur` is the current line accumulated in
reverse.  A final line not terminated by `'\n'` is yielded as-is (no
`'\r'` stripping), and a final empty segment yields no line, matching
Rust's `str::lines`. -/
def linesGo (cur : List Char) : List Char → List (List Char)
  | [] => if cur.isEmpty then [] else [cur.reverse]
  | c :: cs => if c = '\n' then finishLine cur :: linesGo [] cs else linesGo (c :: cur) cs

/-- Rust `str::lines`, used by `detect_from_text` (src/indent.rs line 100). -/
def rustLines (s : List Char) : List (List Char) := linesGo [] s

/-- Rust `str::trim_start`: drop leading Unicode whitespace
(src/indent.rs line 102). -/
def rustTrimStart (l : List Char) : List Char := l.dropWhile rustIsWhitespace

/-- `leading_spaces = line.len() - line.trim_start_matches(' ').len()`
(src/indent.rs line 108).  The byte lengths differ exactly by the number
of leading `' '` characters, each of which is one byte. -/
def leadingSpaces (l : List Char) : Nat := (l.takeWhile (fun c => c == ' ')).length

/-- A line survives the filter of src/indent.rs lines 102-105 when, after
trimming leading whitespace, it is non-empty and does not start with
`'#'`. -/
def lineContent (l : List Char) : Bool :=
  let trimmed := rustTrimStart l
  !(trimmed.isEmpty || trimmed.head? == some '#')

/-- The tab-indentation test of src/indent.rs lines 111-112:
`line.starts_with('\t') || (leading_spaces > 0 && line.as_bytes().get(leading_spaces) == Some(&b'\t'))`.
The first `leadingSpaces l` bytes of the line are `' '`, so the byte at
byte-index `leadingSpaces l` is the first byte of the character at
character-index `leadingSpaces l`; that byte equals `b'\t'` exactly when
that character is `'\t'` (a multi-byte character's first byte is at least
0xC2). -/
def tabCheck (l : List Char) : Bool :=
  l.head? == some '\t' ||
  (decide (0 < leadingSpaces l) && l[leadingSpaces l]? == some '\t')

/-- The line loop of `detect_from_text` (src/indent.rs lines 98-121):
skip blank and comment lines, fail on tab indentation, and otherwise
collect each surviving line's leading-space count in document order. -/
def collectLevels : List (List Char) → Except DetectError (List Nat)
  | [] => .ok []
  | l :: ls =>
    if !lineContent l then collectLevels ls
    else if tabCheck l then .error (.message tabMsg)
    else
      match collectLevels ls with
      | .error e => .error e
      | .ok rest => .ok (leadingSpaces l :: rest)

/-- Rust `usize::abs_diff` (src/indent.rs line 159). -/
def absDiff (a b : Nat) : Nat := if b ≤ a then a - b else b - a

/-- The transition loop of `find_indentation_unit` (src/indent.rs lines
154-165): walk the level sequence with an implicit previous level,
recording the non-zero absolute difference at every change. -/
def transitionDiffs (prev : Nat) : List Nat → List Nat
  | [] => []
  | level :: rest =>
    if level ≠ prev then
      (if 0 < absDiff level prev then [absDiff level prev] else []) ++
        transitionDiffs level rest
    else transitionDiffs level rest

/-- Insert into an ascending list, for `sortNat`. -/
def insertSorted (x : Nat) : List Nat → List Nat
  | [] => [x]
  | y :: ys => if x ≤ y then x :: y :: ys else y :: insertSorted x ys

/-- Ascending sort of a list of naturals, modelling `sort_unstable`
(src/indent.rs line 144); stability is irrelevant for plain naturals. -/
def sortNat : List Nat → List Nat
  | [] => []
  | x :: xs => insertSorted x (sortNat xs)

/-- Rust `Vec::dedup` (src/indent.rs line 145): remove consecutive
duplicates. -/
def dedupAdj : List Nat → List Nat
  | [] => []
  | [x] => [x]
  | x :: y :: rest =>
    if x = y then dedupAdj (y :: rest) else x :: dedupAdj (y :: rest)

/-- The `unique_levels` computation of src/indent.rs lines 139-145:
distinct non-zero levels, ascending. -/
def uniqueLevels (levels : List Nat) : List Nat :=
  dedupAdj (sortNat (levels.filter (fun l => decide (0 < l))))

/-- Fuel-indexed Euclid loop; the fuel only serves to make the definition
structurally recursive, and `b` iterations always suffice because the
second argument strictly decreases. -/
def gcdAux : Nat → Nat → Nat → Nat
  | 0, a, _ => a
  | fuel + 1, a, b => if b = 0 then a else gcdAux fuel b (a % b)

/-- The `gcd` helper of src/indent.rs lines 196-203 (iterative Euclid). -/
def gcd (a b : Nat) : Nat := gcdAux b a b

/-- The GCD reduction loop of src/indent.rs lines 177-185, including the
early `break` once the running value reaches 1. -/
def gcdFoldBreak (r : Nat) : List Nat → Nat
  | [] => r
  | d :: ds =>
    let r' := gcd r d
    if r' = 1 then 1 else gcdFoldBreak r' ds

/-- `find_indentation_unit` (src/indent.rs lines 133-193). -/
def find_indentation_unit (levels : List Nat) : Except DetectError (Option Nat) :=
  if levels.isEmpty then .ok none
  else
    let unique := uniqueLevels levels
    if unique.isEmpty then .ok none
    else
      match transitionDiffs 0 levels ++ unique with
      | [] => .ok none
      | d :: ds =>
        let result := gcdFoldBreak d ds
        if result = 0 then .ok none else .ok (some result)

/-- The post-decoding part of `detect_from_text` (src/indent.rs lines
97-126): collect levels, infer the unit, wrap it in `Indentation`. -/
def detectText (text : List Char) : Except DetectError (Option Indentation) :=
  match collectLevels (rustLines text) with
  | .error e => .error e
  | .ok indentLevels =>
    match find_indentation_unit indentLevels with
    | .error e => .error e
    | .ok indent => .ok (indent.map (fun i => { indent := i }))

/-- Is `b` a UTF-8 continuation byte (`0x80..=0xBF`)? -/
def isCont (b : Nat) : Bool := 0x80 ≤ b && b ≤ 0xBF

/-- Admissible second byte of a three-byte UTF-8 sequence with first byte
`b0` (excludes overlong forms and surrogates, as Rust's `from_utf8`
does). -/
def utf8Byte2Of3 (b0 b1 : Nat) : Bool :=
  if b0 = 0xE0 then 0xA0 ≤ b1 && b1 ≤ 0xBF
  else if b0 = 0xED then 0x80 ≤ b1 && b1 ≤ 0x9F
  else isCont b1

/-- Admissible second byte of a four-byte UTF-8 sequence with first byte
`b0` (excludes overlong forms and code points above U+10FFFF). -/
def utf8Byte2Of4 (b0 b1 : Nat) : Bool :=
  if b0 = 0xF0 then 0x90 ≤ b1 && b1 ≤ 0xBF
  else if b0 = 0xF4 then 0x80 ≤ b1 && b1 ≤ 0x8F
  else isCont b1

/-- Decode the continuation of a two-byte UTF-8 sequence headed by `b0`,
returning the code point and the unconsumed bytes. -/
def utf8Tail2 (b0 : Nat) : List Nat → Option (Nat × List Nat)
  | b1 :: rest2 =>
    if isCont b1 then some ((b0 - 0xC0) * 0x40 + (b1 - 0x80), rest2) else none
  | [] => none

/-- Decode the continuation of a three-byte UTF-8 sequence headed by
`b0`. -/
def utf8Tail3 (b0 : Nat) : List Nat → Option (Nat × List Nat)
  | b1 :: b2 :: rest2 =>
    if utf8Byte2Of3 b0 b1 && isCont b2 then
      some ((b0 - 0xE0) * 0x1000 + (b1 - 0x80) * 0x40 + (b2 - 0x80), rest2)
    else none
  | _ => none

/-- Decode the continuation of a four-byte UTF-8 sequence headed by
`b0`. -/
def utf8Tail4 (b0 : Nat) : List Nat → Option (Nat × List Nat)
  | b1 :: b2 :: b3 :: rest2 =>
    if utf8Byte2Of4 b0 b1 && isCont b2 && isCont b3 then
      some ((b0 - 0xF0) * 0x40000 + (b1 - 0x80) * 0x1000 +
        (b2 - 0x80) * 0x40 + (b3 - 0x80), rest2)
    else none
  | _ => none

/-- Decode one UTF-8 scalar value from first byte `b0` and the remaining
bytes `rest`, following the first-byte dispatch of strict UTF-8 (the
admissible ranges reject overlong encodings, surrogates and code points
above U+10FFFF, as Rust's `std::str::from_utf8` does). -/
def utf8DecodeOne (b0 : Nat) (rest : List Nat) : Option (Nat × List Nat) :=
  if b0 < 0x80 then some (b0, rest)
  else if 0xC2 ≤ b0 ∧ b0 ≤ 0xDF then utf8Tail2 b0 rest
  else if 0xE0 ≤ b0 ∧ b0 ≤ 0xEF then utf8Tail3 b0 rest
  else if 0xF0 ≤ b0 ∧ b0 ≤ 0xF4 then utf8Tail4 b0 rest
  else none

/-- Scalar-by-scalar decoding loop.  The first argument is fuel making
the recursion structural; since every step consumes at least the first
byte, fuel equal to the byte count never runs out. -/
def utf8DecodeGo : Nat → List Nat → Option (List Char)
  | _, [] => some []
  | 0, _ :: _ => none
  | fuel + 1, b0 :: rest =>
    match utf8DecodeOne b0 rest with
    | none => none
    | some (n, rest2) => (utf8DecodeGo fuel rest2).map (fun cs => Char.ofNat n :: cs)

/-- UTF-8 validation-and-decoding, modelling Rust's `std::str::from_utf8`
(src/indent.rs line 87): strict UTF-8, rejecting overlong encodings,
surrogates and code points above U+10FFFF. -/
def utf8Decode (l : List Nat) : Option (List Char) := utf8DecodeGo l.length l

/-- UTF-8 encoding of one scalar value, modelling Rust's `str::as_bytes`
view of a character. -/
def encodeChar (c : Char) : List Nat :=
  let n := c.toNat
  if n < 0x80 then [n]
  else if n < 0x800 then [0xC0 + n / 0x40, 0x80 + n % 0x40]
  else if n < 0x10000 then
    [0xE0 + n / 0x1000, 0x80 + (n / 0x40) % 0x40, 0x80 + n % 0x40]
  else
    [0xF0 + n / 0x40000, 0x80 + (n / 0x1000) % 0x40,
      0x80 + (n / 0x40) % 0x40, 0x80 + n % 0x40]

/-- UTF-8 encoding of a string, modelling Rust's `str::as_bytes`
(src/indent.rs line 54). -/
def utf8Encode : List Char → List Nat
  | [] => []
  | c :: cs => encodeChar c ++ utf8Encode cs

/-- `detect_from_text` (src/indent.rs lines 86-127): decode the bytes as
UTF-8, then run the line analysis. -/
def detect_from_text (yaml : List Nat) : Except DetectError (Option Indentation) :=
  match utf8Decode yaml with
  | none => .error (.message utf8Msg)
  | some text => detectText text

/-- `detect_indentation_slice` (src/indent.rs lines 61-67).  `validate`
models `validate_yaml` (src/indent.rs lines 70-83).  Modelled from the
spec: the YAML event-stream parser is an external collaborator outside
the analyzed source; the Validity Gate drains it to a stream-end event
(success) or to its first syntax fault (propagated), so its observable
outcome on given bytes is a value of `Except String Unit`, which we pass
in as a parameter. -/
def detect_indentation_slice (validate : List Nat → Except String Unit)
    (yaml : List Nat) : Except DetectError (Option Indentation) :=
  match validate yaml with
  | .error e => .error (.parse e)
  | .ok _ => detect_from_text yaml

/-- `detect_indentation` (src/indent.rs lines 53-55): the text entry
point forwards the UTF-8 bytes of its input to the slice entry point. -/
def detect_indentation (validate : List Nat → Except String Unit)
    (yaml : List Char) : Except DetectError (Option Indentation) :=
  detect_indentation_slice validate (utf8Encode yaml)

/-- Iterated GCD of a list, seeded from its first element; the reduction
the specification describes for the difference list. -/
def iterGcd : List Nat → Nat
  | [] => 0
  | d :: ds => ds.foldl Nat.gcd d

/-- Does every increase in the walk over `levels` (starting from `prev`)
add exactly `k` spaces?  Together with "every level is a multiple of
`k`", this renders the specification's "indented by a constant multiple
`k` of spaces at every nesting transition". -/
def incStepsExact (k : Nat) (prev : Nat) : List Nat → Bool
  | [] => true
  | l :: ls => (if prev < l then l == prev + k else true) && incStepsExact k l ls

/-- A validator that accepts every input: models the Validity Gate's
outcome on known-valid YAML. -/
def okValidator : List Nat → Except String Unit := fun _ => .ok ()

/-- A validator that rejects every input with a fixed syntax diagnostic:
models the Validity Gate's outcome on malformed YAML such as
`"@invalid"`. -/
def badValidator : List Nat → Except String Unit :=
  fun _ => .error "did not find expected node content"

/-! ### Lemmas about the numeric reduction -/

theorem gcdAux_eq (fuel : Nat) : ∀ a b : Nat, b ≤ fuel → gcdAux fuel a b = Nat.gcd a b := by
  induction fuel with
  | zero =>
    intro a b hb
    have hb0 : b = 0 := Nat.le_zero.mp hb
    subst hb0
    simp [gcdAux, Nat.gcd_zero_right]
  | succ fuel ih =>
    intro a b hb
    by_cases h0 : b = 0
    · subst h0
      simp [gcdAux, Nat.gcd_zero_right]
    · have hlt : a % b < b := Nat.mod_lt a (Nat.pos_of_ne_zero h0)
      have hle : a % b ≤ fuel := Nat.le_of_lt_succ (Nat.lt_of_lt_of_le hlt hb)
      calc gcdAux (fuel + 1) a b = gcdAux fuel b (a % b) := by simp [gcdAux, h0]
        _ = Nat.gcd b (a % b) := ih b (a % b) hle
        _ = Nat.gcd a b := by
            rw [Nat.gcd_comm b (a % b), ← Nat.gcd_rec b a, Nat.gcd_comm b a]

theorem gcd_eq_natGcd (a b : Nat) : gcd a b = Nat.gcd a b :=
  gcdAux_eq b a b (Nat.le_refl b)

theorem foldl_gcd_one (l : List Nat) : l.foldl Nat.gcd 1 = 1 := by
  induction l with
  | nil => rfl
  | cons d ds ih => simpa [Nat.gcd_one_left] using ih

theorem gcdFoldBreak_eq (ds : List Nat) : ∀ r : Nat, gcdFoldBreak r ds = ds.foldl Nat.gcd r := by
  induction ds with
  | nil => intro r; rfl
  | cons d ds ih =>
    intro r
    by_cases h1 : Nat.gcd r d = 1
    · simp [gcdFoldBreak, gcd_eq_natGcd, h1, foldl_gcd_one]
    · simp [gcdFoldBreak, gcd_eq_natGcd, h1, ih]

theorem foldl_gcd_ne_zero (l : List Nat) : ∀ r : Nat, r ≠ 0 → l.foldl Nat.gcd r ≠ 0 := by
  induction l with
  | nil => intro r hr; exact hr
  | cons d ds ih =>
    intro r hr
    have : Nat.gcd r d ≠ 0 := fun h => hr ((Nat.gcd_eq_zero_iff.mp h).1)
    simpa using ih (Nat.gcd r d) this

theorem dvd_foldl_gcd (k : Nat) (l : List Nat) :
    ∀ r : Nat, k ∣ r → (∀ d ∈ l, k ∣ d) → k ∣ l.foldl Nat.gcd r := by
  induction l with
  | nil => intro r hr _; exact hr
  | cons d ds ih =>
    intro r hr hall
    have hd : k ∣ d := hall d (List.mem_cons_self d ds)
    have hrest : ∀ x ∈ ds, k ∣ x := fun x hx => hall x (List.mem_cons_of_mem d hx)
    simpa using ih (Nat.gcd r d) (Nat.dvd_gcd hr hd) hrest

theorem foldl_gcd_dvd_init (l : List Nat) : ∀ r : Nat, l.foldl Nat.gcd r ∣ r := by
  induction l with
  | nil => intro r; exact Nat.dvd_refl r
  | cons d ds ih =>
    intro r
    have h1 : List.foldl Nat.gcd (Nat.gcd r d) ds ∣ Nat.gcd r d := ih (Nat.gcd r d)
    simpa using Nat.dvd_trans h1 (Nat.gcd_dvd_left r d)

theorem foldl_gcd_dvd_mem (l : List Nat) (a : Nat) (ha : a ∈ l) :
    ∀ r : Nat, l.foldl Nat.gcd r ∣ a := by
  induction l with
  | nil => cases ha
  | cons d ds ih =>
    intro r
    rcases List.mem_cons.mp ha with h | h
    · subst h
      have h1 : List.foldl Nat.gcd (Nat.gcd r a) ds ∣ Nat.gcd r a :=
        foldl_gcd_dvd_init ds (Nat.gcd r a)
      simpa using Nat.dvd_trans h1 (Nat.gcd_dvd_right r a)
    · simpa using ih h (Nat.gcd r d)

theorem iterGcd_eq_of_dvd_mem (k : Nat) (L : List Nat)
    (hdvd : ∀ d ∈ L, k ∣ d) (hmem : k ∈ L) : iterGcd L = k := by
  cases L with
  | nil => cases hmem
  | cons d ds =>
    apply Nat.dvd_antisymm
    · rcases List.mem_cons.mp hmem with h | h
      · subst h; exact foldl_gcd_dvd_init ds k
      · exact foldl_gcd_dvd_mem ds k h d
    · exact dvd_foldl_gcd k ds d (hdvd d (List.mem_cons_self d ds))
        (fun x hx => hdvd x (List.mem_cons_of_mem d hx))

/-! ### Lemmas about sorting and deduplication -/

theorem mem_insertSorted (x a : Nat) (l : List Nat) :
    a ∈ insertSorted x l ↔ a = x ∨ a ∈ l := by
  induction l with
  | nil => simp [insertSorted]
  | cons y ys ih =>
    by_cases h : x ≤ y
    · simp [insertSorted, h]
    · simp [insertSorted, h, ih]
      tauto

theorem mem_sortNat (a : Nat) (l : List Nat) : a ∈ sortNat l ↔ a ∈ l := by
  induction l with
  | nil => simp [sortNat]
  | cons x xs ih => simp [sortNat, mem_insertSorted, ih]

theorem insertSorted_ne_nil (x : Nat) (l : List Nat) : insertSorted x l ≠ [] := by
  cases l with
  | nil => simp [insertSorted]
  | cons y ys =>
    by_cases h : x ≤ y <;> simp [insertSorted, h]

theorem sortNat_eq_nil_iff (l : List Nat) : sortNat l = [] ↔ l = [] := by
  cases l with
  | nil => simp [sortNat]
  | cons x xs => simp [sortNat, insertSorted_ne_nil]

theorem mem_dedupAdj (a : Nat) (l : List Nat) : a ∈ dedupAdj l ↔ a ∈ l := by
  induction l with
  | nil => simp [dedupAdj]
  | cons x xs ih =>
    cases xs with
    | nil => simp [dedupAdj]
    | cons y ys =>
      by_cases h : x = y
      · subst h
        simp [dedupAdj, ih]
      · simp [dedupAdj, h] at ih ⊢
        tauto

theorem dedupAdj_eq_nil_iff (l : List Nat) : dedupAdj l = [] ↔ l = [] := by
  cases l with
  | nil => simp [dedupAdj]
  | cons x xs =>
    cases xs with
    | nil => simp [dedupAdj]
    | cons y ys =>
      by_cases h : x = y
      · subst h
        constructor
        · intro hc
          exact absurd (hc ▸ (mem_dedupAdj x (x :: x :: ys)).mpr (by simp)) (by simp)
        · intro hc; cases hc
      · simp [dedupAdj, h]

theorem mem_uniqueLevels (a : Nat) (levels : List Nat) :
    a ∈ uniqueLevels levels ↔ a ∈ levels ∧ 0 < a := by
  simp [uniqueLevels, mem_dedupAdj, mem_sortNat, List.mem_filter]

theorem uniqueLevels_ne_nil (levels : List Nat) (h : ∃ l ∈ levels, 0 < l) :
    uniqueLevels levels ≠ [] := by
  intro hnil
  obtain ⟨l, hl, hpos⟩ := h
  have : l ∈ uniqueLevels levels := (mem_uniqueLevels l levels).mpr ⟨hl, hpos⟩
  rw [hnil] at this
  cases this

/-! ### Lemmas about the transition walk -/

theorem absDiff_pos (a b : Nat) (h : a ≠ b) : 0 < absDiff a b := by
  unfold absDiff
  split <;> omega

theorem absDiff_dvd (k a b : Nat) (ha : k ∣ a) (hb : k ∣ b) : k ∣ absDiff a b := by
  unfold absDiff
  split
  · exact Nat.dvd_sub' ha hb
  · exact Nat.dvd_sub' hb ha

theorem transitionDiffs_pos (levels : List Nat) :
    ∀ prev : Nat, ∀ d ∈ transitionDiffs prev levels, 0 < d := by
  induction levels with
  | nil => intro prev d hd; cases hd
  | cons level rest ih =>
    intro prev d hd
    by_cases h : level = prev
    · rw [transitionDiffs, if_neg (by simpa using h)] at hd
      exact ih level d hd
    · rw [transitionDiffs, if_pos (by simpa using h),
        if_pos (absDiff_pos level prev h)] at hd
      rcases List.mem_append.mp hd with h1 | h1
      · rcases List.mem_singleton.mp h1 with rfl
        exact absDiff_pos level prev h
      · exact ih level d h1

theorem transitionDiffs_dvd (k : Nat) (levels : List Nat) :
    ∀ prev : Nat, k ∣ prev → (∀ l ∈ levels, k ∣ l) →
      ∀ d ∈ transitionDiffs prev levels, k ∣ d := by
  induction levels with
  | nil => intro prev _ _ d hd; cases hd
  | cons level rest ih =>
    intro prev hprev hall d hd
    have hlevel : k ∣ level := hall level (List.mem_cons_self level rest)
    have hrest : ∀ l ∈ rest, k ∣ l := fun l hl => hall l (List.mem_cons_of_mem level hl)
    by_cases h : level = prev
    · rw [transitionDiffs, if_neg (by simpa using h)] at hd
      exact ih level hlevel hrest d hd
    · rw [transitionDiffs, if_pos (by simpa using h),
        if_pos (absDiff_pos level prev h)] at hd
      rcases List.mem_append.mp hd with h1 | h1
      · rcases List.mem_singleton.mp h1 with rfl
        exact absDiff_dvd k level prev hlevel hprev
      · exact ih level hlevel hrest d h1

theorem incStepsExact_cons (k prev l : Nat) (ls : List Nat) :
    incStepsExact k prev (l :: ls) = true ↔
      ((prev < l → l = prev + k) ∧ incStepsExact k l ls = true) := by
  by_cases h : prev < l
  · simp [incStepsExact, h]
  · simp [incStepsExact, h]

theorem mem_transitionDiffs_of_incSteps (k : Nat) (levels : List Nat)
    (hstep : incStepsExact k 0 levels = true) (hnz : ∃ l ∈ levels, l ≠ 0) :
    k ∈ transitionDiffs 0 levels := by
  induction levels with
  | nil => obtain ⟨l, hl, _⟩ := hnz; cases hl
  | cons level rest ih =>
    obtain ⟨hfst, hrest⟩ := (incStepsExact_cons k 0 level rest).mp hstep
    by_cases h : level = 0
    · subst h
      have hnz' : ∃ l ∈ rest, l ≠ 0 := by
        obtain ⟨l, hl, hne⟩ := hnz
        rcases List.mem_cons.mp hl with rfl | hmem
        · exact absurd rfl hne
        · exact ⟨l, hmem, hne⟩
      rw [transitionDiffs, if_neg (by simp)]
      exact ih hrest hnz'
    · have hk : level = k := by
        have := hfst (Nat.pos_of_ne_zero h)
        omega
      rw [transitionDiffs, if_pos (by simpa using h),
        if_pos (absDiff_pos level 0 h)]
      apply List.mem_append.mpr
      left
      have habs : absDiff level 0 = level := by simp [absDiff]
      rw [List.mem_singleton, habs, hk]

/-! ### Lemmas about `find_indentation_unit` -/

theorem find_unit_eq_iterGcd (levels : List Nat) (h : ∃ l ∈ levels, 0 < l) :
    find_indentation_unit levels =
      .ok (some (iterGcd (transitionDiffs 0 levels ++ uniqueLevels levels))) := by
  obtain ⟨l0, hl0, hl0pos⟩ := h
  have hne : levels ≠ [] := by intro hc; rw [hc] at hl0; cases hl0
  have huniq : uniqueLevels levels ≠ [] := uniqueLevels_ne_nil levels ⟨l0, hl0, hl0pos⟩
  have hdiffs : transitionDiffs 0 levels ++ uniqueLevels levels ≠ [] := by
    intro hc
    exact huniq (List.append_eq_nil.mp hc).2
  rw [find_indentation_unit]
  rw [if_neg (by simpa [List.isEmpty_iff] using hne)]
  simp only []
  rw [if_neg (by simpa [List.isEmpty_iff] using huniq)]
  cases hds : transitionDiffs 0 levels ++ uniqueLevels levels with
  | nil => exact absurd hds hdiffs
  | cons d ds =>
    have hpos : ∀ x ∈ d :: ds, 0 < x := by
      intro x hx
      rw [← hds] at hx
      rcases List.mem_append.mp hx with h1 | h1
      · exact transitionDiffs_pos levels 0 x h1
      · exact ((mem_uniqueLevels x levels).mp h1).2
    have hdpos : 0 < d := hpos d (List.mem_cons_self d ds)
    have hres : ds.foldl Nat.gcd d ≠ 0 :=
      foldl_gcd_ne_zero ds d (Nat.pos_iff_ne_zero.mp hdpos)
    simp only [gcdFoldBreak_eq, iterGcd]
    rw [if_neg hres]

theorem find_unit_never_error (levels : List Nat) :
    ∃ r, find_indentation_unit levels = .ok r := by
  rw [find_indentation_unit]
  by_cases h1 : levels.isEmpty
  · exact ⟨none, by simp [h1]⟩
  · rw [if_neg h1]
    by_cases h2 : (uniqueLevels levels).isEmpty
    · exact ⟨none, by simp [h2]⟩
    · rw [if_neg h2]
      cases hds : transitionDiffs 0 levels ++ uniqueLevels levels with
      | nil => exact ⟨none, rfl⟩
      | cons d ds =>
        by_cases h3 : gcdFoldBreak d ds = 0
        · exact ⟨none, by simp [h3]⟩
        · exact ⟨some (gcdFoldBreak d ds), by simp [h3]⟩

theorem find_unit_pos (levels : List Nat) (i : Nat)
    (h : find_indentation_unit levels = .ok (some i)) : 1 ≤ i := by
  rw [find_indentation_unit] at h
  by_cases h1 : levels.isEmpty
  · rw [if_pos h1] at h; cases h
  · rw [if_neg h1] at h
    by_cases h2 : (uniqueLevels levels).isEmpty
    · rw [if_pos h2] at h; cases h
    · rw [if_neg h2] at h
      cases hds : transitionDiffs 0 levels ++ uniqueLevels levels with
      | nil => rw [hds] at h; cases h
      | cons d ds =>
        rw [hds] at h
        by_cases h3 : gcdFoldBreak d ds = 0
        · simp only [h3, if_pos rfl] at h; cases h
        · simp only [if_neg h3] at h
          have : gcdFoldBreak d ds = i := by
            cases h; rfl
          omega

theorem find_unit_all_zero (levels : List Nat) (h : ∀ l ∈ levels, l = 0) :
    find_indentation_unit levels = .ok none := by
  rw [find_indentation_unit]
  by_cases h1 : levels.isEmpty
  · rw [if_pos h1]
  · rw [if_neg h1]
    have huniq : uniqueLevels levels = [] := by
      have : levels.filter (fun l => decide (0 < l)) = [] := by
        apply List.filter_eq_nil_iff.mpr
        intro a ha
        simp [h a ha]
      simp [uniqueLevels, this, sortNat, dedupAdj]
    rw [if_pos (by simp [huniq])]

/-! ### Lemmas about the line loop -/

theorem collectLevels_skip_head (l : List Char) (ls : List (List Char))
    (h : lineContent l = false) : collectLevels (l :: ls) = collectLevels ls := by
  rw [collectLevels, if_pos (by simp [h])]

theorem collectLevels_cons_content (l : List Char) (ls : List (List Char))
    (h : lineContent l = true) :
    collectLevels (l :: ls) =
      (if tabCheck l then .error (.message tabMsg)
       else
        match collectLevels ls with
        | .error e => .error e
        | .ok rest => .ok (leadingSpaces l :: rest)) := by
  rw [collectLevels, if_neg (by simp [h])]

theorem collectLevels_eq_filter (ls : List (List Char)) :
    collectLevels ls = collectLevels (ls.filter lineContent) := by
  induction ls with
  | nil => rfl
  | cons l rest ih =>
    by_cases h : lineContent l
    · rw [List.filter_cons_of_pos h, collectLevels_cons_content l rest h,
        collectLevels_cons_content l (rest.filter lineContent) h, ih]
    · rw [List.filter_cons_of_neg (by simpa using h),
        collectLevels_skip_head l rest (by simpa using h), ih]

theorem collectLevels_append_skip (ls1 ls2 : List (List Char)) (l : List Char)
    (h : lineContent l = false) :
    collectLevels (ls1 ++ l :: ls2) = collectLevels (ls1 ++ ls2) := by
  induction ls1 with
  | nil => simpa using collectLevels_skip_head l ls2 h
  | cons x xs ih =>
    by_cases hx : lineContent x
    · rw [List.cons_append, List.cons_append, collectLevels_cons_content x _ hx,
        collectLevels_cons_content x _ hx, ih]
    · rw [List.cons_append, List.cons_append,
        collectLevels_skip_head x _ (by simpa using hx),
        collectLevels_skip_head x _ (by simpa using hx), ih]

theorem collectLevels_error_iff (ls : List (List Char)) :
    (∃ e, collectLevels ls = .error e) ↔
      ls.any (fun l => lineContent l && tabCheck l) = true := by
  induction ls with
  | nil =>
    constructor
    · intro ⟨e, he⟩; cases he
    · intro h; cases h
  | cons l rest ih =>
    by_cases hc : lineContent l
    · by_cases ht : tabCheck l
      · constructor
        · intro _; simp [hc, ht]
        · intro _
          exact ⟨.message tabMsg, by rw [collectLevels_cons_content l rest hc, if_pos ht]⟩
      · rw [collectLevels_cons_content l rest hc]
        rw [if_neg ht]
        constructor
        · intro ⟨e, he⟩
          cases hr : collectLevels rest with
          | error e' =>
            have : rest.any (fun l => lineContent l && tabCheck l) = true :=
              ih.mp ⟨e', hr⟩
            simp [this]
          | ok v => rw [hr] at he; cases he
        · intro h
          have hrest : rest.any (fun l => lineContent l && tabCheck l) = true := by
            simp [hc, ht] at h
            simpa using h
          obtain ⟨e, he⟩ := ih.mpr hrest
          exact ⟨e, by rw [he]⟩
    · rw [collectLevels_skip_head l rest (by simpa using hc)]
      simp only [List.any_cons, Bool.or_eq_true]
      constructor
      · intro h
        exact Or.inr (ih.mp h)
      · intro h
        rcases h with h | h
        · simp [hc] at h
        · exact ih.mpr h

theorem collectLevels_error_eq (ls : List (List Char)) (e : DetectError)
    (h : collectLevels ls = .error e) : e = .message tabMsg := by
  induction ls with
  | nil => cases h
  | cons l rest ih =>
    by_cases hc : lineContent l
    · rw [collectLevels_cons_content l rest hc] at h
      by_cases ht : tabCheck l
      · rw [if_pos ht] at h
        cases h; rfl
      · rw [if_neg ht] at h
        cases hr : collectLevels rest with
        | error e' =>
          rw [hr] at h
          cases h
          exact ih hr
        | ok v => rw [hr] at h; cases h
    · rw [collectLevels_skip_head l rest (by simpa using hc)] at h
      exact ih h

/-! ### UTF-8 encode/decode lemmas -/

theorem utf8Tail2_length (b0 n : Nat) (rest rest2 : List Nat)
    (h : utf8Tail2 b0 rest = some (n, rest2)) : rest2.length ≤ rest.length := by
  cases rest with
  | nil => cases h
  | cons b1 r =>
    dsimp only [utf8Tail2] at h
    by_cases hc : isCont b1
    · rw [if_pos hc] at h
      cases h
      simp
    · rw [if_neg hc] at h; cases h

theorem utf8Tail3_length (b0 n : Nat) (rest rest2 : List Nat)
    (h : utf8Tail3 b0 rest = some (n, rest2)) : rest2.length ≤ rest.length := by
  match rest with
  | [] => cases h
  | [b1] => cases h
  | b1 :: b2 :: r =>
    dsimp only [utf8Tail3] at h
    by_cases hc : utf8Byte2Of3 b0 b1 && isCont b2
    · rw [if_pos hc] at h
      cases h
      simp
      omega
    · rw [if_neg hc] at h; cases h

theorem utf8Tail4_length (b0 n : Nat) (rest rest2 : List Nat)
    (h : utf8Tail4 b0 rest = some (n, rest2)) : rest2.length ≤ rest.length := by
  match rest with
  | [] => cases h
  | [b1] => cases h
  | [b1, b2] => cases h
  | b1 :: b2 :: b3 :: r =>
    dsimp only [utf8Tail4] at h
    by_cases hc : utf8Byte2Of4 b0 b1 && isCont b2 && isCont b3
    · rw [if_pos hc] at h
      cases h
      simp
      omega
    · rw [if_neg hc] at h; cases h

theorem utf8DecodeOne_length (b0 n : Nat) (rest rest2 : List Nat)
    (h : utf8DecodeOne b0 rest = some (n, rest2)) : rest2.length ≤ rest.length := by
  unfold utf8DecodeOne at h
  split_ifs at h
  · cases h; exact Nat.le_refl _
  · exact utf8Tail2_length b0 n rest rest2 h
  · exact utf8Tail3_length b0 n rest rest2 h
  · exact utf8Tail4_length b0 n rest rest2 h

theorem utf8DecodeGo_fuel (fuel1 : Nat) :
    ∀ fuel2 l, l.length ≤ fuel1 → l.length ≤ fuel2 →
      utf8DecodeGo fuel1 l = utf8DecodeGo fuel2 l := by
  induction fuel1 with
  | zero =>
    intro fuel2 l h1 _
    have : l = [] := List.eq_nil_of_length_eq_zero (Nat.le_zero.mp h1)
    subst this
    cases fuel2 <;> rfl
  | succ f1 ih =>
    intro fuel2 l h1 h2
    cases l with
    | nil => cases fuel2 <;> rfl
    | cons b0 rest =>
      cases fuel2 with
      | zero => simp at h2
      | succ f2 =>
        rw [utf8DecodeGo, utf8DecodeGo]
        cases hd : utf8DecodeOne b0 rest with
        | none => rfl
        | some v =>
          obtain ⟨n, rest2⟩ := v
          have hlen : rest2.length ≤ rest.length := utf8DecodeOne_length b0 n rest rest2 hd
          simp only []
          rw [ih f2 rest2 (by simp at h1; omega) (by simp at h2; omega)]

theorem char_valid_nat (c : Char) :
    c.toNat < 0xd800 ∨ (0xdfff < c.toNat ∧ c.toNat < 0x110000) := c.valid

theorem utf8Decode_nil : utf8Decode [] = some [] := rfl

theorem decode_encodeChar (c : Char) (bs : List Nat) :
    utf8Decode (encodeChar c ++ bs) = (utf8Decode bs).map (fun cs => c :: cs) := by
  have hv := char_valid_nat c
  have hofn : Char.ofNat c.toNat = c := Char.ofNat_toNat c
  by_cases h1 : c.toNat < 0x80
  · have henc : encodeChar c = [c.toNat] := by
      unfold encodeChar
      rw [if_pos h1]
    rw [henc, List.cons_append, List.nil_append]
    have hone : utf8DecodeOne c.toNat bs = some (c.toNat, bs) := by
      unfold utf8DecodeOne
      rw [if_pos h1]
    show utf8DecodeGo (c.toNat :: bs).length (c.toNat :: bs) = _
    rw [List.length_cons, utf8DecodeGo, hone]
    dsimp only
    rw [utf8DecodeGo_fuel bs.length bs.length bs (Nat.le_refl _) (Nat.le_refl _), hofn]
    rfl
  · by_cases h2 : c.toNat < 0x800
    · have henc : encodeChar c = [0xC0 + c.toNat / 0x40, 0x80 + c.toNat % 0x40] := by
        unfold encodeChar
        rw [if_neg h1, if_pos h2]
      rw [henc, List.cons_append, List.cons_append, List.nil_append]
      have hone : utf8DecodeOne (0xC0 + c.toNat / 0x40) ((0x80 + c.toNat % 0x40) :: bs) =
          some (c.toNat, bs) := by
        unfold utf8DecodeOne
        rw [if_neg (by omega), if_pos (by constructor <;> omega)]
        dsimp only [utf8Tail2]
        rw [if_pos (by unfold isCont; simp; omega)]
        rw [show (0xC0 + c.toNat / 0x40 - 0xC0) * 0x40 + (0x80 + c.toNat % 0x40 - 0x80) =
          c.toNat from by omega]
      show utf8DecodeGo ((0xC0 + c.toNat / 0x40) :: (0x80 + c.toNat % 0x40) :: bs).length _ = _
      rw [List.length_cons, List.length_cons, utf8DecodeGo, hone]
      dsimp only
      rw [utf8DecodeGo_fuel (bs.length + 1) bs.length bs (by omega) (Nat.le_refl _), hofn]
      rfl
    · by_cases h3 : c.toNat < 0x10000
      · have henc : encodeChar c = [0xE0 + c.toNat / 0x1000,
            0x80 + (c.toNat / 0x40) % 0x40, 0x80 + c.toNat % 0x40] := by
          unfold encodeChar
          rw [if_neg h1, if_neg h2, if_pos h3]
        rw [henc, List.cons_append, List.cons_append, List.cons_append, List.nil_append]
        have hone : utf8DecodeOne (0xE0 + c.toNat / 0x1000)
            ((0x80 + (c.toNat / 0x40) % 0x40) :: (0x80 + c.toNat % 0x40) :: bs) =
            some (c.toNat, bs) := by
          unfold utf8DecodeOne
          rw [if_neg (by omega), if_neg (by omega), if_pos (by constructor <;> omega)]
          dsimp only [utf8Tail3]
          rw [if_pos (by
            rw [Bool.and_eq_true]
            constructor
            · unfold utf8Byte2Of3
              split_ifs with hE0 hED
              · simp only [Bool.and_eq_true, decide_eq_true_iff]
                omega
              · simp only [Bool.and_eq_true, decide_eq_true_iff]
                omega
              · unfold isCont
                simp only [Bool.and_eq_true, decide_eq_true_iff]
                omega
            · unfold isCont
              simp only [Bool.and_eq_true, decide_eq_true_iff]
              omega)]
          rw [show (0xE0 + c.toNat / 0x1000 - 0xE0) * 0x1000 +
            (0x80 + (c.toNat / 0x40) % 0x40 - 0x80) * 0x40 +
            (0x80 + c.toNat % 0x40 - 0x80) = c.toNat from by omega]
        show utf8DecodeGo ((0xE0 + c.toNat / 0x1000) ::
          (0x80 + (c.toNat / 0x40) % 0x40) :: (0x80 + c.toNat % 0x40) :: bs).length _ = _
        rw [List.length_cons, List.length_cons, List.length_cons, utf8DecodeGo, hone]
        dsimp only
        rw [utf8DecodeGo_fuel (bs.length + 1 + 1) bs.length bs (by omega) (Nat.le_refl _), hofn]
        rfl
      · have h4 : c.toNat < 0x110000 := by omega
        have henc : encodeChar c = [0xF0 + c.toNat / 0x40000,
            0x80 + (c.toNat / 0x1000) % 0x40, 0x80 + (c.toNat / 0x40) % 0x40,
            0x80 + c.toNat % 0x40] := by
          unfold encodeChar
          rw [if_neg h1, if_neg h2, if_neg h3]
        rw [henc, List.cons_append, List.cons_append, List.cons_append, List.cons_append,
          List.nil_append]
        have hone : utf8DecodeOne (0xF0 + c.toNat / 0x40000)
            ((0x80 + (c.toNat / 0x1000) % 0x40) :: (0x80 + (c.toNat / 0x40) % 0x40) ::
              (0x80 + c.toNat % 0x40) :: bs) = some (c.toNat, bs) := by
          unfold utf8DecodeOne
          rw [if_neg (by omega), if_neg (by omega), if_neg (by omega),
            if_pos (by constructor <;> omega)]
          dsimp only [utf8Tail4]
          rw [if_pos (by
            rw [Bool.and_eq_true, Bool.and_eq_true]
            refine ⟨⟨?_, ?_⟩, ?_⟩
            · unfold utf8Byte2Of4
              split_ifs with hF0 hF4
              · simp only [Bool.and_eq_true, decide_eq_true_iff]
                omega
              · simp only [Bool.and_eq_true, decide_eq_true_iff]
                omega
              · unfold isCont
                simp only [Bool.and_eq_true, decide_eq_true_iff]
                omega
            · unfold isCont
              simp only [Bool.and_eq_true, decide_eq_true_iff]
              omega
            · unfold isCont
              simp only [Bool.and_eq_true, decide_eq_true_iff]
              omega)]
          rw [show (0xF0 + c.toNat / 0x40000 - 0xF0) * 0x40000 +
            (0x80 + (c.toNat / 0x1000) % 0x40 - 0x80) * 0x1000 +
            (0x80 + (c.toNat / 0x40) % 0x40 - 0x80) * 0x40 +
            (0x80 + c.toNat % 0x40 - 0x80) = c.toNat from by omega]
        show utf8DecodeGo ((0xF0 + c.toNat / 0x40000) ::
          (0x80 + (c.toNat / 0x1000) % 0x40) :: (0x80 + (c.toNat / 0x40) % 0x40) ::
          (0x80 + c.toNat % 0x40) :: bs).length _ = _
        rw [List.length_cons, List.length_cons, List.length_cons, List.length_cons,
          utf8DecodeGo, hone]
        dsimp only
        rw [utf8DecodeGo_fuel (bs.length + 1 + 1 + 1) bs.length bs (by omega) (Nat.le_refl _),
          hofn]
        rfl

theorem utf8Decode_encode (s : List Char) : utf8Decode (utf8Encode s) = some s := by
  induction s with
  | nil => rfl
  | cons c cs ih =>
    rw [utf8Encode, decode_encodeChar, ih]
    rfl

/-! ### Entry-point plumbing -/

theorem detect_slice_of_validate_ok (validate : List Nat → Except String Unit)
    (yaml : List Nat) (h : validate yaml = .ok ()) :
    detect_indentation_slice validate yaml = detect_from_text yaml := by
  unfold detect_indentation_slice
  rw [h]

theorem detect_from_text_of_decode (yaml : List Nat) (text : List Char)
    (h : utf8Decode yaml = some text) : detect_from_text yaml = detectText text := by
  unfold detect_from_text
  rw [h]

/-! ### Concrete documents used as inputs below -/

/-- Two-space document from the source's doc example. -/
def docBasic : String := "root:\n  child: value\n"

/-- Unevenly nested document: levels 0, 2 and 6. -/
def docNested : String := "a:\n  b:\n      c: 1\n"

/-- A comment line indented with a tab. -/
def docTabComment : String := "\t# note\n"

/-- A content line indented with a tab. -/
def docTabContent : String := "a:\n\tb: 1\n"

/-- A flow-style sequence whose continuation line is indented with a tab;
tabs are permitted there as separation whitespace by YAML, so the
document is valid, yet no content line has any leading spaces. -/
def docFlowTab : String := "[1,\n\t2]"

/-- A flat document with no indentation. -/
def docFlat : String := "key: value\n"

/-- Two-space document containing a comment line. -/
def docComment : String := "root:\n  # note\n  child: v\n"

/-- The same document without the comment line. -/
def docNoComment : String := "root:\n  child: v\n"

/-! ### Claims -/

/-- C1: for every detection call whose IndentLevel sequence contains at
least one non-zero level, the returned indentation unit equals the
iterated GCD of the list built from the non-zero absolute differences of
the level walk (implicit starting level 0) followed by every distinct
non-zero level; since the result is delivered as `Ok(Some(..))`, a
running GCD of 1 is returned as a valid one-space unit, never as an
error. -/
theorem claim_C1 (validate : List Nat → Except String Unit) (yaml : List Nat)
    (text : List Char) (levels : List Nat)
    (hv : validate yaml = .ok ()) (hd : utf8Decode yaml = some text)
    (hc : collectLevels (rustLines text) = .ok levels)
    (hnz : ∃ l ∈ levels, l ≠ 0) :
    detect_indentation_slice validate yaml =
      .ok (some ⟨iterGcd (transitionDiffs 0 levels ++ uniqueLevels levels)⟩) := by
  rw [detect_slice_of_validate_ok validate yaml hv, detect_from_text_of_decode yaml text hd]
  unfold detectText
  rw [hc]
  have hnz' : ∃ l ∈ levels, 0 < l := by
    obtain ⟨l, hl, hne⟩ := hnz
    exact ⟨l, hl, Nat.pos_of_ne_zero hne⟩
  dsimp only
  rw [find_unit_eq_iterGcd levels hnz']
  rfl

/-- Witness for C1: on `"a:\n  b:\n      c: 1\n"` the levels are
`[0, 2, 6]`, the difference list is `[2, 4, 2, 6]`, and the detected
unit is its iterated GCD, 2. -/
theorem claim_C1_witness :
    detect_indentation_slice okValidator (utf8Encode docNested.toList) =
      .ok (some ⟨2⟩) := by
  have h := claim_C1 okValidator (utf8Encode docNested.toList) docNested.toList
    [0, 2, 6] rfl (utf8Decode_encode docNested.toList) (by decide) (by decide)
  rw [h]
  decide

/-- C2: detection returns exactly one of `Ok(Some _)`, `Ok(None)` or an
error, and an error occurs if and only if the validator rejects the
input, the bytes are not valid UTF-8, or some content line fails the tab
check — there is no other error cause. -/
theorem claim_C2 (validate : List Nat → Except String Unit) (yaml : List Nat) :
    (∃ e, detect_indentation_slice validate yaml = .error e) ↔
      ((∃ pe, validate yaml = .error pe) ∨ utf8Decode yaml = none ∨
        ∃ text, utf8Decode yaml = some text ∧
          (rustLines text).any (fun l => lineContent l && tabCheck l) = true) := by
  cases hval : validate yaml with
  | error pe =>
    constructor
    · intro _
      exact Or.inl ⟨pe, rfl⟩
    · intro _
      exact ⟨.parse pe, by unfold detect_indentation_slice; rw [hval]⟩
  | ok u =>
    cases u
    rw [detect_slice_of_validate_ok validate yaml hval]
    cases hdec : utf8Decode yaml with
    | none =>
      constructor
      · intro _
        exact Or.inr (Or.inl rfl)
      · intro _
        exact ⟨.message utf8Msg, by unfold detect_from_text; rw [hdec]⟩
    | some text =>
      rw [detect_from_text_of_decode yaml text hdec]
      constructor
      · intro ⟨e, he⟩
        unfold detectText at he
        cases hcl : collectLevels (rustLines text) with
        | error e' =>
          exact Or.inr (Or.inr ⟨text, rfl, (collectLevels_error_iff _).mp ⟨e', hcl⟩⟩)
        | ok levels =>
          rw [hcl] at he
          dsimp only at he
          obtain ⟨r, hr⟩ := find_unit_never_error levels
          rw [hr] at he
          cases he
      · intro h
        rcases h with ⟨pe, hpe⟩ | hnone | ⟨text', htext', hany⟩
        · cases hpe
        · cases hnone
        · injection htext' with heq
          subst heq
          obtain ⟨e, he⟩ := (collectLevels_error_iff _).mpr hany
          exact ⟨e, by unfold detectText; rw [he]⟩

/-- Counterexample to C3 as stated: `"\t# note\n"` has a line beginning
with a tab, yet detection does not fail — the line is a comment line, so
the filter skips it before the tab check ever runs, and the result is
`Ok(None)`. -/
theorem claim_C3_counterexample :
    (rustLines docTabComment.toList).any (fun l => l.head? == some '\t') = true ∧
    detect_indentation okValidator docTabComment.toList = .ok none := by
  constructor
  · decide
  · decide

/-- C3 (amended): for every input that is accepted by the validator and
decodes as UTF-8, if some line that survives the blank/comment filter
begins with a tab or has a tab immediately after its counted leading
spaces, detection fails with the fixed indentation-policy error. -/
theorem claim_C3 (validate : List Nat → Except String Unit) (yaml : List Nat)
    (text : List Char)
    (hv : validate yaml = .ok ()) (hd : utf8Decode yaml = some text)
    (htab : (rustLines text).any (fun l => lineContent l && tabCheck l) = true) :
    detect_indentation_slice validate yaml = .error (.message tabMsg) := by
  rw [detect_slice_of_validate_ok validate yaml hv, detect_from_text_of_decode yaml text hd]
  obtain ⟨e, he⟩ := (collectLevels_error_iff (rustLines text)).mpr htab
  have heq := collectLevels_error_eq (rustLines text) e he
  subst heq
  unfold detectText
  rw [he]

/-- Witness for the amended C3: `"a:\n\tb: 1\n"` has a content line
beginning with a tab and fails with the tab error. -/
theorem claim_C3_witness :
    detect_indentation_slice okValidator (utf8Encode docTabContent.toList) =
      .error (.message tabMsg) :=
  claim_C3 okValidator (utf8Encode docTabContent.toList) docTabContent.toList
    rfl (utf8Decode_encode docTabContent.toList) (by decide)

/-- C4: whenever the validator (the Validity Gate) rejects the input,
detection returns that structural error, wrapped unchanged, regardless of
the byte content — no indentation analysis, UTF-8 decoding or tab check
is reached. -/
theorem claim_C4 (validate : List Nat → Except String Unit) (yaml : List Nat)
    (e : String) (h : validate yaml = .error e) :
    detect_indentation_slice validate yaml = .error (.parse e) := by
  unfold detect_indentation_slice
  rw [h]

/-- Witness for C4: a rejecting validator propagates its diagnostic even
on bytes `[9, 255]` that contain both a leading tab and invalid UTF-8. -/
theorem claim_C4_witness :
    detect_indentation_slice badValidator [9, 255] =
      .error (.parse "did not find expected node content") :=
  claim_C4 badValidator [9, 255] "did not find expected node content" rfl

/-- C5: for every document accepted by the validator whose content-line
levels are a constant multiple of `k` at every transition — rendered as:
every level is a multiple of `k`, every increase of the level walk adds
exactly `k`, and some line is indented — with `1 ≤ k ≤ 9`, the text
entry point returns `Ok(Some(Indentation{spaces: k}))`. -/
theorem claim_C5 (validate : List Nat → Except String Unit) (text : List Char)
    (k : Nat) (levels : List Nat)
    (hv : validate (utf8Encode text) = .ok ())
    (hc : collectLevels (rustLines text) = .ok levels)
    (_hk1 : 1 ≤ k) (_hk9 : k ≤ 9)
    (hdvd : ∀ l ∈ levels, k ∣ l)
    (hstep : incStepsExact k 0 levels = true)
    (hnz : ∃ l ∈ levels, l ≠ 0) :
    detect_indentation validate text = .ok (some ⟨k⟩) := by
  unfold detect_indentation
  rw [detect_slice_of_validate_ok validate (utf8Encode text) hv,
    detect_from_text_of_decode (utf8Encode text) text (utf8Decode_encode text)]
  unfold detectText
  rw [hc]
  dsimp only
  have hnz' : ∃ l ∈ levels, 0 < l := by
    obtain ⟨l, hl, hne⟩ := hnz
    exact ⟨l, hl, Nat.pos_of_ne_zero hne⟩
  rw [find_unit_eq_iterGcd levels hnz']
  have hkmem : k ∈ transitionDiffs 0 levels :=
    mem_transitionDiffs_of_incSteps k levels hstep hnz
  have hdall : ∀ d ∈ transitionDiffs 0 levels ++ uniqueLevels levels, k ∣ d := by
    intro d hd
    rcases List.mem_append.mp hd with h | h
    · exact transitionDiffs_dvd k levels 0 (Nat.dvd_zero k) hdvd d h
    · exact hdvd d ((mem_uniqueLevels d levels).mp h).1
  rw [iterGcd_eq_of_dvd_mem k (transitionDiffs 0 levels ++ uniqueLevels levels) hdall
    (List.mem_append.mpr (Or.inl hkmem))]
  rfl

/-- Witness for C5: the doc-example `"root:\n  child: value\n"` with
`k = 2` and levels `[0, 2]`. -/
theorem claim_C5_witness :
    detect_indentation okValidator docBasic.toList = .ok (some ⟨2⟩) :=
  claim_C5 okValidator docBasic.toList 2 [0, 2] rfl (by decide) (by decide)
    (by decide) (by decide) (by decide) (by decide)

/-- Counterexample to C6 as stated: in the valid flow-style document
`"[1,\n\t2]"` every content line has zero leading spaces, yet detection
returns the tab error instead of `Ok(None)`, because the continuation
line is indented with a tab. -/
theorem claim_C6_counterexample :
    ((rustLines docFlowTab.toList).filter lineContent).all
      (fun l => leadingSpaces l == 0) = true ∧
    detect_indentation okValidator docFlowTab.toList = .error (.message tabMsg) := by
  constructor
  · decide
  · decide

/-- C6 (amended): for every input accepted by the validator that decodes
as UTF-8 and whose line loop completes (no tab error), if the collected
IndentLevel sequence is empty or all-zero, detection returns
`Ok(None)`. -/
theorem claim_C6 (validate : List Nat → Except String Unit) (yaml : List Nat)
    (text : List Char) (levels : List Nat)
    (hv : validate yaml = .ok ()) (hd : utf8Decode yaml = some text)
    (hc : collectLevels (rustLines text) = .ok levels)
    (hall : ∀ l ∈ levels, l = 0) :
    detect_indentation_slice validate yaml = .ok none := by
  rw [detect_slice_of_validate_ok validate yaml hv, detect_from_text_of_decode yaml text hd]
  unfold detectText
  rw [hc]
  dsimp only
  rw [find_unit_all_zero levels hall]
  rfl

/-- Witness for the amended C6: the flat document `"key: value\n"`
collects levels `[0]` and yields `Ok(None)`. -/
theorem claim_C6_witness :
    detect_indentation_slice okValidator (utf8Encode docFlat.toList) = .ok none :=
  claim_C6 okValidator (utf8Encode docFlat.toList) docFlat.toList [0]
    rfl (utf8Decode_encode docFlat.toList) (by decide) (by decide)

/-- C7: whenever detection returns `Ok(Some(ind))`, the contained spaces
value is at least 1; a computed unit of 0 is normalized to `Ok(None)`
inside `find_indentation_unit`, so `Indentation{0}` is never produced. -/
theorem claim_C7 (validate : List Nat → Except String Unit) (yaml : List Nat)
    (ind : Indentation)
    (h : detect_indentation_slice validate yaml = .ok (some ind)) :
    1 ≤ ind.spaces := by
  unfold detect_indentation_slice at h
  cases hval : validate yaml with
  | error e => rw [hval] at h; cases h
  | ok u =>
    rw [hval] at h
    dsimp only at h
    unfold detect_from_text at h
    cases hdec : utf8Decode yaml with
    | none => rw [hdec] at h; cases h
    | some text =>
      rw [hdec] at h
      dsimp only at h
      unfold detectText at h
      cases hcl : collectLevels (rustLines text) with
      | error e => rw [hcl] at h; cases h
      | ok levels =>
        rw [hcl] at h
        dsimp only at h
        cases hfu : find_indentation_unit levels with
        | error e => rw [hfu] at h; cases h
        | ok r =>
          rw [hfu] at h
          cases r with
          | none => cases h
          | some i =>
            have hi : ind = ⟨i⟩ := by
              dsimp only [Option.map] at h
              cases h
              rfl
            rw [hi]
            exact find_unit_pos levels i hfu

/-- Witness for C7: on the two-space example the detected unit is 2 and
the theorem yields `1 ≤ 2`. -/
theorem claim_C7_witness :
    detect_indentation_slice okValidator (utf8Encode docBasic.toList) =
      .ok (some ⟨2⟩) ∧ 1 ≤ (Indentation.mk 2).spaces :=
  ⟨by decide, claim_C7 okValidator (utf8Encode docBasic.toList) ⟨2⟩ (by decide)⟩

/-- C8: the analyzer's result depends only on the lines that survive the
blank/comment filter, so inserting or removing blank and comment-only
lines never changes it; in particular the two concrete documents of the
claim both yield `Ok(Some(Indentation{spaces: 2}))`. -/
theorem claim_C8 :
    (∀ t1 t2 : List Char,
      (rustLines t1).filter lineContent = (rustLines t2).filter lineContent →
      detectText t1 = detectText t2) ∧
    detect_indentation okValidator docComment.toList = .ok (some ⟨2⟩) ∧
    detect_indentation okValidator docNoComment.toList = .ok (some ⟨2⟩) := by
  refine ⟨?_, by decide, by decide⟩
  intro t1 t2 h
  unfold detectText
  rw [collectLevels_eq_filter (rustLines t1), collectLevels_eq_filter (rustLines t2), h]

/-- Witness for C8: the two documents of the claim have the same filtered
content lines, so the analyzer gives them identical results. -/
theorem claim_C8_witness :
    detectText docComment.toList = detectText docNoComment.toList :=
  claim_C8.1 docComment.toList docNoComment.toList (by decide)

/-- C9: detection is a pure function of its input: on identical
validator and bytes the result is identical, with no state carried
between calls; and the text entry point is exactly the slice entry point
applied to the UTF-8 bytes of the text. -/
theorem claim_C9 :
    (∀ (validate : List Nat → Except String Unit) (yaml : List Nat),
      detect_indentation_slice validate yaml = detect_indentation_slice validate yaml) ∧
    (∀ (validate : List Nat → Except String Unit) (text : List Char),
      detect_indentation validate text =
        detect_indentation_slice validate (utf8Encode text)) :=
  ⟨fun _ _ => rfl, fun _ _ => rfl⟩

/-- C10: the blank/comment filter runs before the tab check, so a
filtered line contributes nothing to the loop (no error and no level),
the tab-indented comment document decodes to `Ok(None)`, and a tab
located after the first non-space, non-tab content character never makes
the tab check fire. -/
theorem claim_C10 :
    (∀ (ls1 ls2 : List (List Char)) (l : List Char), lineContent l = false →
      collectLevels (ls1 ++ l :: ls2) = collectLevels (ls1 ++ ls2)) ∧
    detectText docTabComment.toList = .ok none ∧
    (∀ (m : Nat) (c : Char) (rest : List Char), c ≠ ' ' → c ≠ '\t' →
      tabCheck (List.replicate m ' ' ++ c :: rest) = false) := by
  refine ⟨collectLevels_append_skip, by decide, ?_⟩
  intro m c rest hc ht
  have hlead : leadingSpaces (List.replicate m ' ' ++ c :: rest) = m := by
    induction m with
    | zero => simp [leadingSpaces, List.takeWhile_cons, hc]
    | succ p ih =>
      rw [List.replicate_succ, List.cons_append]
      simp only [leadingSpaces, List.takeWhile_cons] at ih ⊢
      simp [ih, hc]
  have hget : (List.replicate m ' ' ++ c :: rest)[m]? = some c := by
    rw [List.getElem?_append_right (by simp)]
    simp
  unfold tabCheck
  rw [hlead, hget]
  cases m with
  | zero => simp [hc, ht]
  | succ p => simp [List.replicate_succ, ht]

/-- Witness for C10: a tab-indented comment line between content lines
is dropped from the loop, and a tab after the content start of
`"  a\t"` does not fire the tab check. -/
theorem claim_C10_witness :
    collectLevels (["k: v".toList] ++ "\t# x".toList :: []) =
      collectLevels (["k: v".toList] ++ []) ∧
    tabCheck (List.replicate 2 ' ' ++ 'a' :: ['\t']) = false :=
  ⟨claim_C10.1 ["k: v".toList] [] "\t# x".toList (by decide),
    claim_C10.2.2 2 'a' ['\t'] (by decide) (by decide)⟩

end Yaml
